import Mathlib

/-!
Shallow embedding of the Whoosh-based fulltext search layer of weblate
(src/weblate/trans/search.py): index shards, the batched update and delete
flush operations, the query engine and the similarity engine, together with
proofs of the behavioural properties claimed about them.

Machine-level conventions: shard contents are association lists of documents
keyed by an integer primary key; the external Whoosh engine (query parsing,
term matching, scoring) is abstracted into explicit function parameters; the
external task system (celery batching and retry) is modelled from the spec.
-/

set_option autoImplicit false

namespace WeblateSearch

/-- Document of the source shard (schema SourceSchema: pk, source, context,
location). -/
structure SrcDoc where
  pk : Nat
  source : String
  context : String
  location : String
deriving DecidableEq

/-- Document of a target shard (schema TargetSchema: pk, target, comment). -/
structure TgtDoc where
  pk : Nat
  target : String
  comment : String
deriving DecidableEq

/-- A unit row of the backing store, as seen by the indexing code: primary
key, the three source-language fields, and the translation-language fields
(language code, target text, comment). -/
structure TransUnit where
  pk : Nat
  source : String
  context : String
  location : String
  language : String
  target : String
  comment : String
deriving DecidableEq

/-- State of the index store: the singleton source shard plus one lazily
created target shard per language code. `ioFail` lists the shard names whose
underlying storage is inaccessible (opening them raises IOError); `locked`
lists the shard names whose write lock is currently held by another writer
(acquiring a writer raises LockError). -/
structure Store where
  ioFail : List String
  locked : List String
  source : List SrcDoc
  targets : List (String × List TgtDoc)
deriving DecidableEq

/-- Errors surfaced by the index store, mirroring IOError and
whoosh.index.LockError. -/
inductive SearchErr where
  | ioError
  | lockError
deriving DecidableEq

/-- Shard name of the target index of a language, as in get_target_index. -/
def targetName (lang : String) : String := "target-" ++ lang

/-- Contents of the target shard of a language; a shard never yet written is
empty (open_index creates it lazily). -/
def targetDocs (st : Store) (lang : String) : List TgtDoc :=
  (st.targets.lookup lang).getD []

/-- Replace the contents of one target shard, keeping every other shard. -/
def updateAssoc : List (String × List TgtDoc) → String → List TgtDoc →
    List (String × List TgtDoc)
  | [], l, d => [(l, d)]
  | (k, v) :: rest, l, d =>
    if k = l then (l, d) :: rest else (k, v) :: updateAssoc rest l d

/-- Store with the target shard of `lang` replaced by `docs`. -/
def setTarget (st : Store) (lang : String) (docs : List TgtDoc) : Store :=
  { st with targets := updateAssoc st.targets lang docs }

/-- writer.delete_by_term("pk", pk) on the source shard. -/
def delete_by_term_src (docs : List SrcDoc) (pk : Nat) : List SrcDoc :=
  docs.filter (fun d => decide (d.pk ≠ pk))

/-- writer.delete_by_term("pk", pk) on a target shard. -/
def delete_by_term_tgt (docs : List TgtDoc) (pk : Nat) : List TgtDoc :=
  docs.filter (fun d => decide (d.pk ≠ pk))

/-- One iteration of the per-language loop of Fulltext.delete_search_units:
open the target index of the language (IOError if its storage is
inaccessible), acquire its writer (LockError if locked), and delete by pk
every unit id grouped under that language. -/
def deleteTargetStep (acc : Except SearchErr Store) (p : String × List Nat) :
    Except SearchErr Store :=
  match acc with
  | .error e => .error e
  | .ok st =>
    if targetName p.1 ∈ st.ioFail then .error .ioError
    else if targetName p.1 ∈ st.locked then .error .lockError
    else .ok (setTarget st p.1 (p.2.foldl delete_by_term_tgt (targetDocs st p.1)))

/-- Fulltext.delete_search_units: open the source index, acquire its writer,
delete by pk every id of `source_units` in that one writer scope, then handle
each language of the `languages` grouping in its own writer scope. IOError
and LockError propagate to the caller; nothing is caught here. -/
def delete_search_units (st : Store) (source_units : List Nat)
    (languages : List (String × List Nat)) : Except SearchErr Store :=
  if "source" ∈ st.ioFail then .error .ioError
  else if "source" ∈ st.locked then .error .lockError
  else
    languages.foldl deleteTargetStep
      (.ok { st with source := source_units.foldl delete_by_term_src st.source })

/-- Append an element to a list unless already present: the order-preserving
model of adding to a Python set. -/
def insertUnique (l : List Nat) (x : Nat) : List Nat :=
  if x ∈ l then l else l ++ [x]

/-- Add a unit id under a language key, as languages.setdefault-style code in
delete_fulltext does: extend the existing entry, or append a new singleton
entry when the language is not yet a key. -/
def addToLang : List (String × List Nat) → String → Nat →
    List (String × List Nat)
  | [], lang, u => [(lang, [u])]
  | (k, v) :: rest, lang, u =>
    if k = lang then (k, insertUnique v u) :: rest
    else (k, v) :: addToLang rest lang u

/-- The grouping loop of delete_fulltext: fold the batch of (unit id,
language) pairs into the deduplicated list of all unit ids and the map from
language to the deduplicated list of unit ids named with that language. -/
def groupDeletes (ids : List (Nat × String)) :
    List Nat × List (String × List Nat) :=
  ids.foldl (fun acc p => (insertUnique acc.1 p.1, addToLang acc.2 p.2 p.1))
    ([], [])

/-- Unit ids grouped under a language by the delete flush. -/
def langUnits (m : List (String × List Nat)) (lang : String) : List Nat :=
  (m.lookup lang).getD []

/-- The delete_fulltext flush body: group the batched (unit id, language)
pairs, then run Fulltext.delete_search_units on the grouping. Only LockError
is caught (and turned into a retry) by the task wrapper; IOError propagates. -/
def delete_fulltext_flush (ids : List (Nat × String)) (st : Store) :
    Except SearchErr Store :=
  delete_search_units st (groupDeletes ids).1 (groupDeletes ids).2

/-- Fulltext.delete_search_unit (the non-batched single-unit delete): open
both the source index and the target index of the language inside a try
block, then delete the pk from each via an AsyncWriter (which never raises
LockError); any IOError is swallowed, returning with the store unchanged. -/
def delete_search_unit (pk : Nat) (lang : String) (st : Store) : Store :=
  if "source" ∈ st.ioFail ∨ targetName lang ∈ st.ioFail then st
  else
    let st1 := { st with source := delete_by_term_src st.source pk }
    setTarget st1 lang (delete_by_term_tgt (targetDocs st1 lang) pk)

/-- Fulltext.update_source_unit_index: writer.update_document replaces the
source-shard document keyed by the unit pk with the projection of the unit
onto the source schema. -/
def update_source_unit_index (docs : List SrcDoc) (u : TransUnit) : List SrcDoc :=
  docs.filter (fun d => decide (d.pk ≠ u.pk)) ++ [⟨u.pk, u.source, u.context, u.location⟩]

/-- Fulltext.update_target_unit_index: writer.update_document replaces the
target-shard document keyed by the unit pk with the projection of the unit
onto the target schema. -/
def update_target_unit_index (docs : List TgtDoc) (u : TransUnit) : List TgtDoc :=
  docs.filter (fun d => decide (d.pk ≠ u.pk)) ++ [⟨u.pk, u.target, u.comment⟩]

/-- One iteration of the per-language loop of Fulltext.update_index: filter
the batch to the units of this language with a non-empty target; when any
exist, open the target shard of the language and replace their documents in
one buffered writer scope. -/
def updateTargetStep (units : List TransUnit) (acc : Except SearchErr Store)
    (lang : String) : Except SearchErr Store :=
  match acc with
  | .error e => .error e
  | .ok st =>
    let language_units :=
      units.filter (fun u => decide (u.language = lang) && decide (u.target ≠ ""))
    if language_units = [] then .ok st
    else if targetName lang ∈ st.ioFail then .error .ioError
    else if targetName lang ∈ st.locked then .error .lockError
    else .ok (setTarget st lang
      (language_units.foldl update_target_unit_index (targetDocs st lang)))

/-- Fulltext.update_index: when the batch is non-empty, replace the source
document of every unit inside one buffered writer scope on the source shard;
then loop over `languages` (the catalog of languages that currently have at
least one translation, supplied externally by Language.objects.have_translation)
and update each target shard. IOError and LockError propagate. -/
def update_index (languages : List String) (units : List TransUnit)
    (st : Store) : Except SearchErr Store :=
  let step1 : Except SearchErr Store :=
    if units = [] then .ok st
    else if "source" ∈ st.ioFail then .error .ioError
    else if "source" ∈ st.locked then .error .lockError
    else .ok { st with source := units.foldl update_source_unit_index st.source }
  match step1 with
  | .error e => .error e
  | .ok st1 => languages.foldl (updateTargetStep units) (.ok st1)

/-- Outcome of a batch-flush job as seen by the task system. -/
inductive JobOutcome where
  | committed (st : Store)
  | failed (e : SearchErr)
deriving DecidableEq

/-- Modelled from the spec: the task system (celery shared_task with
max_retries = 1000, the retry driver itself being outside this repository)
re-executes an abandoned flush with the same batch arguments. `step k` is the
outcome of execution number k of the job body on the store state of that
moment; a LockError consumes one unit of the retry budget and resubmits,
any other error fails the job permanently at once. The returned number counts
executions performed. -/
def runRetriesAux (step : Nat → Except SearchErr Store) :
    Nat → Nat → JobOutcome × Nat
  | 0, attempt =>
    (match step attempt with
     | .ok st => (JobOutcome.committed st, attempt + 1)
     | .error .lockError => (JobOutcome.failed .lockError, attempt + 1)
     | .error e => (JobOutcome.failed e, attempt + 1))
  | budget + 1, attempt =>
    (match step attempt with
     | .ok st => (JobOutcome.committed st, attempt + 1)
     | .error .lockError => runRetriesAux step budget (attempt + 1)
     | .error e => (JobOutcome.failed e, attempt + 1))

/-- The retry bound of update_fulltext and delete_fulltext: max_retries = 1000. -/
def maxRetries : Nat := 1000

/-- Modelled from the spec: run a batch-flush job to completion under the
bounded retry policy — an initial execution plus at most `maxRetries`
resubmissions of the same batch. -/
def runTask (step : Nat → Except SearchErr Store) : JobOutcome × Nat :=
  runRetriesAux step maxRetries 0

/-- The five searchable fields with their default-false toggles, as the local
dict literal in Fulltext.search. -/
def searchFields : List String :=
  ["source", "context", "target", "comment", "location"]

/-- Final value of one field toggle after search.update(params): the last
entry of `params` naming the field wins, a field never named stays false. -/
def toggleOf (params : List (String × Bool)) (f : String) : Bool :=
  match params.reverse.find? (fun p => p.1 == f) with
  | some p => p.2
  | none => false

/-- Text content of one field of a source-shard document. -/
def srcFieldText (d : SrcDoc) (f : String) : String :=
  if f = "source" then d.source
  else if f = "context" then d.context
  else if f = "location" then d.location
  else ""

/-- Text content of one field of a target-shard document. -/
def tgtFieldText (d : TgtDoc) (f : String) : String :=
  if f = "target" then d.target
  else if f = "comment" then d.comment
  else ""

/-- Fulltext.base_search on the source shard. Modelled from the spec: the
whoosh per-field QueryParser and searcher are abstracted into `matcher`,
where `matcher f query text` decides whether the parsed query of field f
matches a document whose field f holds `text`; a document matches the OR of
the per-field parsed queries of the enabled fields iff some enabled field
matches, and the pk of every matching document is collected with no limit. -/
def base_search_src (matcher : String → String → String → Bool)
    (query : String) (tog : String → Bool) (docs : List SrcDoc) : List Nat :=
  (docs.filter (fun d =>
      (["source", "context", "location"].filter tog).any
        (fun f => matcher f query (srcFieldText d f)))).map (fun d => d.pk)

/-- Fulltext.base_search on a target shard, with the same whoosh abstraction
as base_search_src, over the fields target and comment. -/
def base_search_tgt (matcher : String → String → String → Bool)
    (query : String) (tog : String → Bool) (docs : List TgtDoc) : List Nat :=
  (docs.filter (fun d =>
      (["target", "comment"].filter tog).any
        (fun f => matcher f query (tgtFieldText d f)))).map (fun d => d.pk)

/-- Fulltext.search: build the five field toggles from `params` over
default-false, query the source shard once when any of source, context,
location is enabled, then, when target or comment is enabled, query the
target shard of every language of `langs` in turn, accumulating all pks into
one set. -/
def search (matcher : String → String → String → Bool) (st : Store)
    (query : String) (langs : List String) (params : List (String × Bool)) :
    Finset Nat :=
  let tog := toggleOf params
  let pks1 : Finset Nat :=
    if tog "source" || tog "context" || tog "location" then
      (base_search_src matcher query tog st.source).toFinset
    else ∅
  if tog "target" || tog "comment" then
    langs.foldl
      (fun acc l => acc ∪ (base_search_tgt matcher query tog (targetDocs st l)).toFinset)
      pks1
  else pks1

/-- Maximum of a list of rationals, as the Python builtin max over a
non-empty list (the empty case is never reached by its caller, which guards
on an empty result list first). -/
def pyMax : List ℚ → ℚ
  | [] => 0
  | x :: xs => xs.foldl max x

/-- The scores dict of Fulltext.more_like: each hit pk maps to its raw score
times 100 divided by the maximal raw score; with duplicate pks the last
entry wins, as in a Python dict comprehension. -/
def normScores (results : List (Nat × ℚ)) (m : ℚ) (k : Nat) : ℚ :=
  match results.reverse.find? (fun h => h.1 == k) with
  | some h => h.2 * 100 / m
  | none => 0

/-- The tail of Fulltext.more_like after the engine returned its ranked
hits: empty hits give an empty answer; otherwise normalize every score
against the maximal raw score and keep, in the ranked order, the pks whose
normalized score is strictly above 50 and which differ from the querying pk. -/
def more_like_filter (pk : Nat) (results : List (Nat × ℚ)) : List Nat :=
  if results = [] then []
  else
    let m := pyMax (results.map Prod.snd)
    (results.filter (fun h =>
        decide (50 < normScores results m h.1) && decide (h.1 ≠ pk))).map Prod.fst

/-- A source-shard document matches the Or query built over the extracted
key terms iff some term matches it; in particular the Or of zero terms
matches nothing, as whoosh normalizes Or([]) to a null query. `tmatch t d`
abstracts whether the term t occurs in the source field of d. -/
def orTermsMatch (tmatch : String → SrcDoc → Bool)
    (kts : List (String × ℚ)) (d : SrcDoc) : Bool :=
  kts.any (fun t => tmatch t.1 d)

/-- Modelled from the spec: descending insertion by raw score, standing for
the relevance ranking of the whoosh searcher. -/
def insertByScore (h : Nat × ℚ) : List (Nat × ℚ) → List (Nat × ℚ)
  | [] => [h]
  | x :: xs => if x.2 < h.2 then h :: x :: xs else x :: insertByScore h xs

/-- Modelled from the spec: rank scored hits by descending raw score. -/
def rankByScore (l : List (Nat × ℚ)) : List (Nat × ℚ) :=
  l.foldr insertByScore []

/-- Fulltext.more_like: extract key terms from the source text (the whoosh
statistic key_terms_from_text abstracted into `keyTerms`), search the source
shard with the Or query over those terms (document scoring abstracted into
`score`), keep the `top` ranked hits, and post-process them with
more_like_filter. -/
def more_like (keyTerms : String → List (String × ℚ))
    (tmatch : String → SrcDoc → Bool) (score : SrcDoc → ℚ) (top : Nat)
    (st : Store) (pk : Nat) (src : String) : List Nat :=
  let kts := keyTerms src
  let results :=
    (rankByScore ((st.source.filter (orTermsMatch tmatch kts)).map
      (fun d => (d.pk, score d)))).take top
  more_like_filter pk results

/-! Helper lemmas about the index store and the delete path. -/

theorem lookup_updateAssoc (m : List (String × List TgtDoc)) (k l : String)
    (d : List TgtDoc) :
    (updateAssoc m k d).lookup l = if l = k then some d else m.lookup l := by
  induction m with
  | nil =>
    by_cases h : l = k
    · simp [updateAssoc, List.lookup, h]
    · have hb : (l == k) = false := beq_eq_false_iff_ne.mpr h
      simp [updateAssoc, List.lookup, h, hb]
  | cons p rest ih =>
    obtain ⟨a, b⟩ := p
    by_cases hak : a = k
    · subst hak
      by_cases hl : l = a
      · simp [updateAssoc, List.lookup, hl]
      · have hb : (l == a) = false := beq_eq_false_iff_ne.mpr hl
        simp [updateAssoc, List.lookup, hl, hb]
    · by_cases hl : l = a
      · subst hl
        simp [updateAssoc, hak, List.lookup, Ne.symm hak]
      · have hb : (l == a) = false := beq_eq_false_iff_ne.mpr hl
        simp [updateAssoc, hak, List.lookup, hl, hb, ih]

theorem targetDocs_setTarget (st : Store) (k l : String) (docs : List TgtDoc) :
    targetDocs (setTarget st k docs) l = if l = k then docs else targetDocs st l := by
  simp only [targetDocs, setTarget, lookup_updateAssoc]
  by_cases h : l = k <;> simp [h]

theorem lookup_eq_none_of_not_mem_keys {β : Type} (m : List (String × β))
    (l : String) (h : l ∉ m.map Prod.fst) : m.lookup l = none := by
  induction m with
  | nil => rfl
  | cons p rest ih =>
    simp only [List.map_cons, List.mem_cons, not_or] at h
    have hb : (l == p.1) = false := beq_eq_false_iff_ne.mpr h.1
    simp [List.lookup, hb, ih h.2]

theorem foldl_delete_tgt (pks : List Nat) (docs : List TgtDoc) :
    pks.foldl delete_by_term_tgt docs =
      docs.filter (fun d => decide (d.pk ∉ pks)) := by
  induction pks generalizing docs with
  | nil => simp
  | cons p ps ih =>
    rw [List.foldl_cons, ih, delete_by_term_tgt, List.filter_filter]
    apply List.filter_congr
    intro d _
    by_cases h1 : d.pk = p <;> by_cases h2 : d.pk ∈ ps <;>
      simp [h1, h2, List.mem_cons]

theorem foldl_delete_src (pks : List Nat) (docs : List SrcDoc) :
    pks.foldl delete_by_term_src docs =
      docs.filter (fun d => decide (d.pk ∉ pks)) := by
  induction pks generalizing docs with
  | nil => simp
  | cons p ps ih =>
    rw [List.foldl_cons, ih, delete_by_term_src, List.filter_filter]
    apply List.filter_congr
    intro d _
    by_cases h1 : d.pk = p <;> by_cases h2 : d.pk ∈ ps <;>
      simp [h1, h2, List.mem_cons]

theorem deleteLoop_ok (m : List (String × List Nat)) :
    ∀ st : Store, (m.map Prod.fst).Nodup → st.ioFail = [] → st.locked = [] →
    ∃ st2, m.foldl deleteTargetStep (.ok st) = .ok st2 ∧
      st2.ioFail = [] ∧ st2.locked = [] ∧ st2.source = st.source ∧
      ∀ l, targetDocs st2 l =
        (targetDocs st l).filter (fun d => decide (d.pk ∉ langUnits m l)) := by
  induction m with
  | nil =>
    intro st _ h1 h2
    refine ⟨st, rfl, h1, h2, rfl, fun l => ?_⟩
    simp [langUnits]
  | cons p rest ih =>
    intro st hnd h1 h2
    obtain ⟨k, v⟩ := p
    simp only [List.map_cons, List.nodup_cons] at hnd
    have hstep : deleteTargetStep (.ok st) (k, v) =
        .ok (setTarget st k (v.foldl delete_by_term_tgt (targetDocs st k))) := by
      simp [deleteTargetStep, h1, h2]
    set st1 := setTarget st k (v.foldl delete_by_term_tgt (targetDocs st k)) with hst1
    have h1a : st1.ioFail = [] := h1
    have h2a : st1.locked = [] := h2
    obtain ⟨st2, hfold, hio2, hlk2, hsrc2, htgt2⟩ := ih st1 hnd.2 h1a h2a
    refine ⟨st2, ?_, hio2, hlk2, hsrc2, ?_⟩
    · rw [List.foldl_cons, hstep, hfold]
    · intro l
      by_cases hl : l = k
      · subst hl
        have hrest : langUnits rest l = [] := by
          simp [langUnits, lookup_eq_none_of_not_mem_keys rest l hnd.1]
        rw [htgt2 l, hrest]
        have hd1 : targetDocs st1 l = (targetDocs st l).filter
            (fun d => decide (d.pk ∉ v)) := by
          rw [hst1, targetDocs_setTarget, if_pos rfl, foldl_delete_tgt]
        rw [hd1]
        have hcons : langUnits ((l, v) :: rest) l = v := by
          simp [langUnits, List.lookup]
        rw [hcons]
        simp
      · have hd1 : targetDocs st1 l = targetDocs st l := by
          rw [hst1, targetDocs_setTarget, if_neg hl]
        have hcons : langUnits ((k, v) :: rest) l = langUnits rest l := by
          have hb : (l == k) = false := beq_eq_false_iff_ne.mpr hl
          simp [langUnits, List.lookup, hb]
        rw [htgt2 l, hd1, hcons]

/-! Helper lemmas about the grouping loop of delete_fulltext. -/

theorem mem_insertUnique (l : List Nat) (x y : Nat) :
    y ∈ insertUnique l x ↔ y ∈ l ∨ y = x := by
  unfold insertUnique
  split
  · rename_i hx
    constructor
    · exact Or.inl
    · rintro (h | rfl)
      · exact h
      · exact hx
  · simp [List.mem_append]

theorem nodup_insertUnique (l : List Nat) (x : Nat) (h : l.Nodup) :
    (insertUnique l x).Nodup := by
  unfold insertUnique
  split
  · exact h
  · rename_i hx
    simp [List.nodup_append, h, hx]

theorem langUnits_nil (l : String) : langUnits [] l = [] := rfl

theorem langUnits_addToLang (m : List (String × List Nat)) (lang l : String)
    (u : Nat) :
    langUnits (addToLang m lang u) l =
      if l = lang then insertUnique (langUnits m l) u else langUnits m l := by
  induction m with
  | nil =>
    by_cases h : l = lang
    · simp [addToLang, langUnits, List.lookup, h, insertUnique]
    · have hb : (l == lang) = false := beq_eq_false_iff_ne.mpr h
      simp [addToLang, langUnits, List.lookup, h, hb]
  | cons p rest ih =>
    obtain ⟨k, v⟩ := p
    by_cases hk : k = lang
    · subst hk
      by_cases hl : l = k
      · subst hl
        simp [addToLang, langUnits, List.lookup]
      · have hb : (l == k) = false := beq_eq_false_iff_ne.mpr hl
        simp [addToLang, langUnits, List.lookup, hb, hl]
    · by_cases hl : l = k
      · subst hl
        simp [addToLang, hk, langUnits, List.lookup]
      · have hb : (l == k) = false := beq_eq_false_iff_ne.mpr hl
        have hcons : addToLang ((k, v) :: rest) lang u =
            (k, v) :: addToLang rest lang u := by
          simp [addToLang, hk]
        have hstep : ∀ m : List (String × List Nat),
            langUnits ((k, v) :: m) l = langUnits m l := by
          intro m
          simp [langUnits, List.lookup, hb]
        rw [hcons]
        simp only [hstep]
        exact ih

theorem keys_addToLang (m : List (String × List Nat)) (lang : String) (u : Nat) :
    (addToLang m lang u).map Prod.fst =
      if lang ∈ m.map Prod.fst then m.map Prod.fst
      else m.map Prod.fst ++ [lang] := by
  induction m with
  | nil => simp [addToLang]
  | cons p rest ih =>
    obtain ⟨k, v⟩ := p
    by_cases hk : k = lang
    · subst hk
      simp [addToLang]
    · have hne : lang ≠ k := fun h => hk h.symm
      by_cases hmem : lang ∈ rest.map Prod.fst <;>
        simp [addToLang, hk, ih, hmem, hne]

theorem nodup_keys_addToLang (m : List (String × List Nat)) (lang : String)
    (u : Nat) (h : (m.map Prod.fst).Nodup) :
    ((addToLang m lang u).map Prod.fst).Nodup := by
  rw [keys_addToLang]
  split
  · exact h
  · rename_i hmem
    simp [List.nodup_append, h, hmem]

theorem groupFold_mem_fst (ids : List (Nat × String)) :
    ∀ acc : List Nat × List (String × List Nat), ∀ x : Nat,
    (x ∈ (ids.foldl
      (fun acc p => (insertUnique acc.1 p.1, addToLang acc.2 p.2 p.1)) acc).1 ↔
        x ∈ acc.1 ∨ x ∈ ids.map Prod.fst) := by
  induction ids with
  | nil => intro acc x; simp
  | cons p ps ih =>
    intro acc x
    rw [List.foldl_cons, ih]
    rw [mem_insertUnique]
    simp only [List.map_cons, List.mem_cons]
    constructor
    · rintro ((h | h) | h)
      · exact Or.inl h
      · exact Or.inr (Or.inl h)
      · exact Or.inr (Or.inr h)
    · rintro (h | h | h)
      · exact Or.inl (Or.inl h)
      · exact Or.inl (Or.inr h)
      · exact Or.inr h

theorem groupFold_nodup_fst (ids : List (Nat × String)) :
    ∀ acc : List Nat × List (String × List Nat), acc.1.Nodup →
    ((ids.foldl
      (fun acc p => (insertUnique acc.1 p.1, addToLang acc.2 p.2 p.1)) acc).1).Nodup := by
  induction ids with
  | nil => intro acc h; exact h
  | cons p ps ih =>
    intro acc h
    rw [List.foldl_cons]
    exact ih _ (nodup_insertUnique _ _ h)

theorem groupFold_langUnits (ids : List (Nat × String)) :
    ∀ acc : List Nat × List (String × List Nat), ∀ l : String, ∀ u : Nat,
    (u ∈ langUnits (ids.foldl
      (fun acc p => (insertUnique acc.1 p.1, addToLang acc.2 p.2 p.1)) acc).2 l ↔
        u ∈ langUnits acc.2 l ∨ (u, l) ∈ ids) := by
  induction ids with
  | nil => intro acc l u; simp
  | cons p ps ih =>
    intro acc l u
    rw [List.foldl_cons, ih]
    rw [langUnits_addToLang]
    by_cases hl : l = p.2
    · subst hl
      rw [if_pos rfl, mem_insertUnique]
      simp only [List.mem_cons]
      constructor
      · rintro ((h | rfl) | h)
        · exact Or.inl h
        · exact Or.inr (Or.inl (Prod.ext rfl rfl))
        · exact Or.inr (Or.inr h)
      · rintro (h | h | h)
        · exact Or.inl (Or.inl h)
        · exact Or.inl (Or.inr (congrArg Prod.fst h))
        · exact Or.inr h
    · rw [if_neg hl]
      simp only [List.mem_cons]
      constructor
      · rintro (h | h)
        · exact Or.inl h
        · exact Or.inr (Or.inr h)
      · rintro (h | h | h)
        · exact Or.inl h
        · exact absurd (congrArg Prod.snd h) hl
        · exact Or.inr h

theorem groupFold_nodup_keys (ids : List (Nat × String)) :
    ∀ acc : List Nat × List (String × List Nat), (acc.2.map Prod.fst).Nodup →
    (((ids.foldl
      (fun acc p => (insertUnique acc.1 p.1, addToLang acc.2 p.2 p.1)) acc).2).map
        Prod.fst).Nodup := by
  induction ids with
  | nil => intro acc h; exact h
  | cons p ps ih =>
    intro acc h
    rw [List.foldl_cons]
    exact ih _ (nodup_keys_addToLang _ _ _ h)

theorem groupDeletes_mem_fst (ids : List (Nat × String)) (x : Nat) :
    x ∈ (groupDeletes ids).1 ↔ x ∈ ids.map Prod.fst := by
  rw [groupDeletes, groupFold_mem_fst]
  simp

theorem groupDeletes_nodup_fst (ids : List (Nat × String)) :
    (groupDeletes ids).1.Nodup :=
  groupFold_nodup_fst ids ([], []) List.nodup_nil

theorem groupDeletes_langUnits (ids : List (Nat × String)) (l : String) (u : Nat) :
    u ∈ langUnits (groupDeletes ids).2 l ↔ (u, l) ∈ ids := by
  rw [groupDeletes, groupFold_langUnits]
  simp [langUnits]

theorem groupDeletes_nodup_keys (ids : List (Nat × String)) :
    (((groupDeletes ids).2).map Prod.fst).Nodup :=
  groupFold_nodup_keys ids ([], []) List.nodup_nil

/-! Helper lemmas about flush errors and the bounded retry driver. -/

theorem delete_flush_ioFail (ids : List (Nat × String)) (st : Store)
    (h : "source" ∈ st.ioFail) :
    delete_fulltext_flush ids st = .error .ioError := by
  simp [delete_fulltext_flush, delete_search_units, h]

theorem delete_flush_locked (ids : List (Nat × String)) (st : Store)
    (hio : "source" ∉ st.ioFail) (hlk : "source" ∈ st.locked) :
    delete_fulltext_flush ids st = .error .lockError := by
  simp [delete_fulltext_flush, delete_search_units, hio, hlk]

theorem update_index_locked (languages : List String) (units : List TransUnit)
    (st : Store) (hne : units ≠ []) (hio : "source" ∉ st.ioFail)
    (hlk : "source" ∈ st.locked) :
    update_index languages units st = .error .lockError := by
  simp [update_index, hne, hio, hlk]

theorem runRetriesAux_ioError (step : Nat → Except SearchErr Store) (b a : Nat)
    (h : step a = .error .ioError) :
    runRetriesAux step b a = (.failed .ioError, a + 1) := by
  cases b <;> simp [runRetriesAux, h]

theorem runRetriesAux_lock (step : Nat → Except SearchErr Store)
    (h : ∀ k, step k = .error .lockError) :
    ∀ b a : Nat, runRetriesAux step b a = (.failed .lockError, a + b + 1) := by
  intro b
  induction b with
  | zero =>
    intro a
    simp [runRetriesAux, h a]
  | succ n ihn =>
    intro a
    rw [show runRetriesAux step (n + 1) a = runRetriesAux step n (a + 1) from by
      simp [runRetriesAux, h a]]
    rw [ihn (a + 1)]
    congr 1
    omega

theorem runRetriesAux_count_le (step : Nat → Except SearchErr Store) :
    ∀ b a : Nat, (runRetriesAux step b a).2 ≤ a + b + 1 := by
  intro b
  induction b with
  | zero =>
    intro a
    cases hs : step a with
    | ok st => simp [runRetriesAux, hs]
    | error e => cases e <;> simp [runRetriesAux, hs]
  | succ n ihn =>
    intro a
    cases hs : step a with
    | ok st => simp [runRetriesAux, hs]
    | error e =>
      cases e with
      | ioError => simp [runRetriesAux, hs]
      | lockError =>
        rw [show runRetriesAux step (n + 1) a = runRetriesAux step n (a + 1) from by
          simp [runRetriesAux, hs]]
        calc (runRetriesAux step n (a + 1)).2 ≤ (a + 1) + n + 1 := ihn (a + 1)
          _ ≤ a + (n + 1) + 1 := by omega

/-- Claim C1, counterexample: a delete flush of the single pair (1, cs)
against a store whose source shard storage is inaccessible does not complete
as a successful no-op — the IOError propagates out of
Fulltext.delete_search_units (which has no try/except) and out of the
delete_fulltext task body (which catches only LockError). -/
theorem delete_flush_io_counterexample :
    delete_fulltext_flush [(1, "cs")] ⟨["source"], [], [], []⟩ =
      .error .ioError := by
  rfl

/-- Claim C1, amended: on the batched delete flush an I/O error opening a
shard propagates to the task system and fails the job permanently on its
first execution, neither swallowed nor retried; only the non-batched
single-unit delete path Fulltext.delete_search_unit swallows IOError and
returns with the store unchanged. -/
theorem delete_flush_io_propagates (ids : List (Nat × String)) (st : Store)
    (h : "source" ∈ st.ioFail) :
    delete_fulltext_flush ids st = .error .ioError ∧
    runTask (fun _ => delete_fulltext_flush ids st) = (.failed .ioError, 1) ∧
    (∀ pk lang st2, "source" ∈ st2.ioFail →
      delete_search_unit pk lang st2 = st2) := by
  have h1 : delete_fulltext_flush ids st = .error .ioError :=
    delete_flush_ioFail ids st h
  refine ⟨h1, ?_, ?_⟩
  · have h2 := runRetriesAux_ioError
      (fun _ => delete_fulltext_flush ids st) maxRetries 0 h1
    simpa [runTask] using h2
  · intro pk lang st2 h2
    simp [delete_search_unit, h2]

/-- Witness for the amended claim C1 at a concrete store whose source shard
cannot be opened. -/
theorem delete_flush_io_propagates_witness :
    "source" ∈ (Store.mk ["source"] [] [] []).ioFail ∧
    (delete_fulltext_flush [(1, "cs")] (Store.mk ["source"] [] [] []) =
        .error .ioError ∧
      runTask (fun _ => delete_fulltext_flush [(1, "cs")]
        (Store.mk ["source"] [] [] [])) = (.failed .ioError, 1) ∧
      (∀ pk lang st2, "source" ∈ st2.ioFail →
        delete_search_unit pk lang st2 = st2)) :=
  ⟨by decide, delete_flush_io_propagates [(1, "cs")] (Store.mk ["source"] [] [] [])
    (by decide)⟩

/-- Claim C2: the delete flush groups the batched (unit id, language) pairs
into the deduplicated collection of all unit ids and a per-language map, then
deletes by pk from the source shard every id of the union and from each
target shard exactly the ids named with its language, leaving every other
document in place. -/
theorem delete_flush_grouping_spec (ids : List (Nat × String)) (st : Store)
    (hio : st.ioFail = []) (hlk : st.locked = []) :
    (groupDeletes ids).1.Nodup ∧
    (∀ x, x ∈ (groupDeletes ids).1 ↔ x ∈ ids.map Prod.fst) ∧
    (∀ l u, u ∈ langUnits (groupDeletes ids).2 l ↔ (u, l) ∈ ids) ∧
    ∃ st2, delete_fulltext_flush ids st = .ok st2 ∧
      st2.source = st.source.filter (fun d => decide (d.pk ∉ ids.map Prod.fst)) ∧
      ∀ l, targetDocs st2 l =
        (targetDocs st l).filter (fun d => decide ((d.pk, l) ∉ ids)) := by
  refine ⟨groupDeletes_nodup_fst ids, fun x => groupDeletes_mem_fst ids x,
    fun l u => groupDeletes_langUnits ids l u, ?_⟩
  have hio2 : "source" ∉ st.ioFail := by rw [hio]; simp
  have hlk2 : "source" ∉ st.locked := by rw [hlk]; simp
  have hmio : ({ st with source :=
      ((groupDeletes ids).1.foldl delete_by_term_src st.source) } : Store).ioFail
      = [] := hio
  have hmlk : ({ st with source :=
      ((groupDeletes ids).1.foldl delete_by_term_src st.source) } : Store).locked
      = [] := hlk
  obtain ⟨st2, hfold, _, _, hsrc2, htgt2⟩ :=
    deleteLoop_ok (groupDeletes ids).2 _ (groupDeletes_nodup_keys ids) hmio hmlk
  refine ⟨st2, ?_, ?_, ?_⟩
  · rw [delete_fulltext_flush, delete_search_units, if_neg hio2, if_neg hlk2]
    exact hfold
  · rw [hsrc2]
    show (groupDeletes ids).1.foldl delete_by_term_src st.source = _
    rw [foldl_delete_src]
    apply List.filter_congr
    intro d _
    exact decide_eq_decide.mpr (not_congr (groupDeletes_mem_fst ids d.pk))
  · intro l
    rw [htgt2 l]
    show (targetDocs st l).filter _ = (targetDocs st l).filter _
    apply List.filter_congr
    intro d _
    exact decide_eq_decide.mpr (not_congr (groupDeletes_langUnits ids l d.pk))

/-- Witness for claim C2 at a concrete batch and store. -/
theorem delete_flush_grouping_spec_witness :
    (Store.mk [] [] [SrcDoc.mk 1 "a" "b" "c"] [("cs", [TgtDoc.mk 1 "t" "m"])]).ioFail
      = [] ∧
    ((groupDeletes [(1, "cs")]).1.Nodup ∧
      (∀ x, x ∈ (groupDeletes [(1, "cs")]).1 ↔ x ∈ [(1, "cs")].map Prod.fst) ∧
      (∀ l u, u ∈ langUnits (groupDeletes [(1, "cs")]).2 l ↔ (u, l) ∈ [(1, "cs")]) ∧
      ∃ st2, delete_fulltext_flush [(1, "cs")]
          (Store.mk [] [] [SrcDoc.mk 1 "a" "b" "c"] [("cs", [TgtDoc.mk 1 "t" "m"])]) =
          .ok st2 ∧
        st2.source = [SrcDoc.mk 1 "a" "b" "c"].filter
          (fun d => decide (d.pk ∉ [(1, "cs")].map Prod.fst)) ∧
        ∀ l, targetDocs st2 l =
          (targetDocs (Store.mk [] [] [SrcDoc.mk 1 "a" "b" "c"]
            [("cs", [TgtDoc.mk 1 "t" "m"])]) l).filter
            (fun d => decide ((d.pk, l) ∉ [(1, "cs")]))) :=
  ⟨rfl, delete_flush_grouping_spec [(1, "cs")]
    (Store.mk [] [] [SrcDoc.mk 1 "a" "b" "c"] [("cs", [TgtDoc.mk 1 "t" "m"])])
    rfl rfl⟩

/-- Claim C3: a batch-flush job (update or delete) hitting persistent lock
contention is resubmitted with the same batch and fails permanently after
the initial execution plus exactly maxRetries = 1000 retries; no job is ever
executed more than 1001 times. -/
theorem flush_retry_bound (ids : List (Nat × String)) (languages : List String)
    (units : List TransUnit) (envs : Nat → Store) (hne : units ≠ [])
    (hcon : ∀ k, "source" ∈ (envs k).locked ∧ "source" ∉ (envs k).ioFail) :
    runTask (fun k => delete_fulltext_flush ids (envs k)) =
      (.failed .lockError, maxRetries + 1) ∧
    runTask (fun k => update_index languages units (envs k)) =
      (.failed .lockError, maxRetries + 1) ∧
    ∀ step : Nat → Except SearchErr Store, (runTask step).2 ≤ maxRetries + 1 := by
  have hd : ∀ k, delete_fulltext_flush ids (envs k) = .error .lockError :=
    fun k => delete_flush_locked ids (envs k) (hcon k).2 (hcon k).1
  have hu : ∀ k, update_index languages units (envs k) = .error .lockError :=
    fun k => update_index_locked languages units (envs k) hne (hcon k).2 (hcon k).1
  refine ⟨?_, ?_, ?_⟩
  · have h2 := runRetriesAux_lock _ hd maxRetries 0
    simpa [runTask] using h2
  · have h2 := runRetriesAux_lock _ hu maxRetries 0
    simpa [runTask] using h2
  · intro step
    have h2 := runRetriesAux_count_le step maxRetries 0
    simpa [runTask] using h2

/-- Witness for claim C3 at a concrete batch against a store whose source
shard lock is permanently held. -/
theorem flush_retry_bound_witness :
    ([TransUnit.mk 1 "a" "b" "c" "cs" "t" "m"] : List TransUnit) ≠ [] ∧
    (runTask (fun _ => delete_fulltext_flush [(1, "cs")]
        (Store.mk [] ["source"] [] [])) = (.failed .lockError, maxRetries + 1) ∧
      runTask (fun _ => update_index ["cs"] [TransUnit.mk 1 "a" "b" "c" "cs" "t" "m"]
        (Store.mk [] ["source"] [] [])) = (.failed .lockError, maxRetries + 1) ∧
      ∀ step : Nat → Except SearchErr Store, (runTask step).2 ≤ maxRetries + 1) :=
  ⟨by decide, flush_retry_bound [(1, "cs")] ["cs"]
    [TransUnit.mk 1 "a" "b" "c" "cs" "t" "m"]
    (fun _ => Store.mk [] ["source"] [] []) (by decide)
    (fun _ => ⟨by simp, by simp⟩)⟩

/-! Helper lemmas about the update path. -/

theorem mem_update_target (docs : List TgtDoc) (u : TransUnit) (d : TgtDoc)
    (h : d ∈ update_target_unit_index docs u) :
    d ∈ docs ∨ d = ⟨u.pk, u.target, u.comment⟩ := by
  rw [update_target_unit_index, List.mem_append] at h
  rcases h with h | h
  · exact Or.inl (List.mem_of_mem_filter h)
  · exact Or.inr (List.mem_singleton.mp h)

theorem mem_foldl_update_tgt (us : List TransUnit) :
    ∀ docs : List TgtDoc, ∀ d ∈ us.foldl update_target_unit_index docs,
    d ∈ docs ∨ ∃ u ∈ us, d = ⟨u.pk, u.target, u.comment⟩ := by
  induction us with
  | nil =>
    intro docs d hd
    exact Or.inl hd
  | cons v vs ih =>
    intro docs d hd
    rw [List.foldl_cons] at hd
    rcases ih _ d hd with h | ⟨u, hu, he⟩
    · rcases mem_update_target _ _ _ h with h2 | h2
      · exact Or.inl h2
      · exact Or.inr ⟨v, List.mem_cons_self v vs, h2⟩
    · exact Or.inr ⟨u, List.mem_cons_of_mem v hu, he⟩

theorem pk_preserved_update_src (docs : List SrcDoc) (u : TransUnit) (p : Nat)
    (h : ∃ d ∈ docs, d.pk = p) :
    ∃ d ∈ update_source_unit_index docs u, d.pk = p := by
  by_cases hp : p = u.pk
  · refine ⟨⟨u.pk, u.source, u.context, u.location⟩, ?_, hp.symm⟩
    rw [update_source_unit_index, List.mem_append]
    exact Or.inr (List.mem_singleton.mpr rfl)
  · obtain ⟨d, hd, hdp⟩ := h
    refine ⟨d, ?_, hdp⟩
    rw [update_source_unit_index, List.mem_append]
    refine Or.inl (List.mem_filter.mpr ⟨hd, ?_⟩)
    simp [hdp, hp]

theorem pk_preserved_foldl_src (us : List TransUnit) :
    ∀ docs : List SrcDoc, ∀ p : Nat, (∃ d ∈ docs, d.pk = p) →
    ∃ d ∈ us.foldl update_source_unit_index docs, d.pk = p := by
  induction us with
  | nil =>
    intro docs p h
    exact h
  | cons v vs ih =>
    intro docs p h
    rw [List.foldl_cons]
    exact ih _ p (pk_preserved_update_src docs v p h)

theorem pk_foldl_update_src (us : List TransUnit) :
    ∀ docs : List SrcDoc, ∀ u ∈ us,
    ∃ d ∈ us.foldl update_source_unit_index docs, d.pk = u.pk := by
  induction us with
  | nil =>
    intro docs u hu
    exact absurd hu (List.not_mem_nil u)
  | cons v vs ih =>
    intro docs u hu
    rw [List.foldl_cons]
    rcases List.mem_cons.mp hu with rfl | h
    · refine pk_preserved_foldl_src vs _ u.pk
        ⟨⟨u.pk, u.source, u.context, u.location⟩, ?_, rfl⟩
      rw [update_source_unit_index, List.mem_append]
      exact Or.inr (List.mem_singleton.mpr rfl)
    · exact ih _ u h

theorem updateLoop_ok (units : List TransUnit) (langs : List String) :
    ∀ st : Store, st.ioFail = [] → st.locked = [] →
    ∃ st2, langs.foldl (updateTargetStep units) (.ok st) = .ok st2 ∧
      st2.ioFail = [] ∧ st2.locked = [] ∧ st2.source = st.source ∧
      ∀ l d, d ∈ targetDocs st2 l → d ∈ targetDocs st l ∨
        ∃ u ∈ units, u.language = l ∧ u.target ≠ "" ∧ l ∈ langs ∧
          d = ⟨u.pk, u.target, u.comment⟩ := by
  induction langs with
  | nil =>
    intro st h1 h2
    exact ⟨st, rfl, h1, h2, rfl, fun l d hd => Or.inl hd⟩
  | cons lang rest ih =>
    intro st h1 h2
    by_cases hlu : units.filter
        (fun u => decide (u.language = lang) && decide (u.target ≠ "")) = []
    · have hstep : updateTargetStep units (.ok st) lang = .ok st := by
        simp only [updateTargetStep, hlu]
        rfl
      obtain ⟨st2, hf, a1, a2, a3, hmem⟩ := ih st h1 h2
      refine ⟨st2, ?_, a1, a2, a3, ?_⟩
      · rw [List.foldl_cons, hstep]
        exact hf
      · intro l d hd
        rcases hmem l d hd with h | ⟨u, hu, e1, e2, e3, e4⟩
        · exact Or.inl h
        · exact Or.inr ⟨u, hu, e1, e2, List.mem_cons_of_mem lang e3, e4⟩
    · have hf1 : ¬ targetName lang ∈ st.ioFail := by rw [h1]; simp
      have hf2 : ¬ targetName lang ∈ st.locked := by rw [h2]; simp
      have hstep : updateTargetStep units (.ok st) lang =
          .ok (setTarget st lang
            ((units.filter (fun u => decide (u.language = lang) &&
              decide (u.target ≠ ""))).foldl update_target_unit_index
              (targetDocs st lang))) := by
        simp only [updateTargetStep]
        rw [if_neg hlu, if_neg hf1, if_neg hf2]
      set st1 := setTarget st lang
        ((units.filter (fun u => decide (u.language = lang) &&
          decide (u.target ≠ ""))).foldl update_target_unit_index
          (targetDocs st lang)) with hst1
      obtain ⟨st2, hf, a1, a2, a3, hmem⟩ := ih st1 h1 h2
      refine ⟨st2, ?_, a1, a2, a3, ?_⟩
      · rw [List.foldl_cons, hstep]
        exact hf
      · intro l d hd
        rcases hmem l d hd with h | ⟨u, hu, e1, e2, e3, e4⟩
        · by_cases hl : l = lang
          · subst hl
            rw [hst1, targetDocs_setTarget, if_pos rfl] at h
            rcases mem_foldl_update_tgt _ _ d h with h2 | ⟨u, hu, he⟩
            · exact Or.inl h2
            · have hu2 := List.mem_filter.mp hu
              refine Or.inr ⟨u, hu2.1, ?_, ?_, List.mem_cons_self l rest, he⟩
              · have := hu2.2
                simp only [Bool.and_eq_true, decide_eq_true_eq] at this
                exact this.1
              · have := hu2.2
                simp only [Bool.and_eq_true, decide_eq_true_eq] at this
                exact this.2
          · rw [hst1, targetDocs_setTarget, if_neg hl] at h
            exact Or.inl h
        · exact Or.inr ⟨u, hu, e1, e2, List.mem_cons_of_mem lang e3, e4⟩

/-- Claim C4: an update flush on a clean store succeeds; afterwards every
unit of the batch has a document in the source shard, and any document of a
target shard is either a preexisting one or the target projection of a batch
unit whose language is the language of that shard, whose target is non-empty, and
whose language is in the catalog of languages having translations. -/
theorem update_index_spec (languages : List String) (units : List TransUnit)
    (st : Store) (hio : st.ioFail = []) (hlk : st.locked = []) :
    ∃ st2, update_index languages units st = .ok st2 ∧
      (∀ u ∈ units, ∃ d ∈ st2.source, d.pk = u.pk) ∧
      (∀ l d, d ∈ targetDocs st2 l → d ∈ targetDocs st l ∨
        ∃ u ∈ units, u.language = l ∧ u.target ≠ "" ∧ l ∈ languages ∧
          d = ⟨u.pk, u.target, u.comment⟩) := by
  have hio2 : "source" ∉ st.ioFail := by rw [hio]; simp
  have hlk2 : "source" ∉ st.locked := by rw [hlk]; simp
  by_cases hne : units = []
  · subst hne
    obtain ⟨st2, hf, _, _, _, hmem⟩ := updateLoop_ok [] languages st hio hlk
    refine ⟨st2, ?_, ?_, hmem⟩
    · rw [show update_index languages [] st =
          languages.foldl (updateTargetStep []) (.ok st) from by
        simp [update_index]]
      exact hf
    · intro u hu
      exact absurd hu (List.not_mem_nil u)
  · have hmio : ({ st with source :=
        (units.foldl update_source_unit_index st.source) } : Store).ioFail = [] := hio
    have hmlk : ({ st with source :=
        (units.foldl update_source_unit_index st.source) } : Store).locked = [] := hlk
    obtain ⟨st2, hf, _, _, hsrc, hmem⟩ :=
      updateLoop_ok units languages _ hmio hmlk
    refine ⟨st2, ?_, ?_, ?_⟩
    · rw [show update_index languages units st =
          languages.foldl (updateTargetStep units)
            (Except.ok ({ st with source :=
              (units.foldl update_source_unit_index st.source) } : Store))
          from by simp [update_index, hne, hio2, hlk2]]
      exact hf
    · intro u hu
      rw [hsrc]
      exact pk_foldl_update_src units st.source u hu
    · exact hmem

/-- Witness for claim C4 at a concrete batch of two units, one translated
into cs and one untranslated. -/
theorem update_index_spec_witness :
    (Store.mk [] [] [] []).ioFail = [] ∧
    ∃ st2, update_index ["cs"]
        [TransUnit.mk 1 "s1" "c1" "l1" "cs" "t1" "m1",
         TransUnit.mk 2 "s2" "c2" "l2" "cs" "" "m2"]
        (Store.mk [] [] [] []) = .ok st2 ∧
      (∀ u ∈ [TransUnit.mk 1 "s1" "c1" "l1" "cs" "t1" "m1",
              TransUnit.mk 2 "s2" "c2" "l2" "cs" "" "m2"],
        ∃ d ∈ st2.source, d.pk = u.pk) ∧
      (∀ l d, d ∈ targetDocs st2 l → d ∈ targetDocs (Store.mk [] [] [] []) l ∨
        ∃ u ∈ [TransUnit.mk 1 "s1" "c1" "l1" "cs" "t1" "m1",
               TransUnit.mk 2 "s2" "c2" "l2" "cs" "" "m2"],
          u.language = l ∧ u.target ≠ "" ∧ l ∈ ["cs"] ∧
            d = ⟨u.pk, u.target, u.comment⟩) :=
  ⟨rfl, update_index_spec ["cs"]
    [TransUnit.mk 1 "s1" "c1" "l1" "cs" "t1" "m1",
     TransUnit.mk 2 "s2" "c2" "l2" "cs" "" "m2"]
    (Store.mk [] [] [] []) rfl rfl⟩

/-! Helper lemmas about the query engine. -/

theorem mem_foldl_union (f : String → Finset Nat) (langs : List String) :
    ∀ init : Finset Nat, ∀ p : Nat,
    (p ∈ langs.foldl (fun acc l => acc ∪ f l) init ↔
      p ∈ init ∨ ∃ l ∈ langs, p ∈ f l) := by
  induction langs with
  | nil =>
    intro init p
    simp
  | cons a as ih =>
    intro init p
    rw [List.foldl_cons, ih]
    constructor
    · rintro (h | ⟨l, hl, hp⟩)
      · rcases Finset.mem_union.mp h with h2 | h2
        · exact Or.inl h2
        · exact Or.inr ⟨a, List.mem_cons_self a as, h2⟩
      · exact Or.inr ⟨l, List.mem_cons_of_mem a hl, hp⟩
    · rintro (h | ⟨l, hl, hp⟩)
      · exact Or.inl (Finset.mem_union.mpr (Or.inl h))
      · rcases List.mem_cons.mp hl with rfl | h2
        · exact Or.inl (Finset.mem_union.mpr (Or.inr hp))
        · exact Or.inr ⟨l, h2, hp⟩

theorem mem_search_iff (matcher : String → String → String → Bool) (st : Store)
    (query : String) (langs : List String) (params : List (String × Bool))
    (p : Nat) :
    p ∈ search matcher st query langs params ↔
      ((toggleOf params "source" || toggleOf params "context" ||
          toggleOf params "location") = true ∧
        p ∈ base_search_src matcher query (toggleOf params) st.source) ∨
      ((toggleOf params "target" || toggleOf params "comment") = true ∧
        ∃ l ∈ langs, p ∈ base_search_tgt matcher query (toggleOf params)
          (targetDocs st l)) := by
  by_cases h1 : (toggleOf params "source" || toggleOf params "context" ||
      toggleOf params "location") = true <;>
    by_cases h2 : (toggleOf params "target" || toggleOf params "comment") = true <;>
      simp [search, h1, h2, mem_foldl_union, List.mem_toFinset]

/-- Claim C5: the search result is exactly the union of the source-shard
result (present when any of source, context, location is enabled) and the
per-language target-shard results (present when target or comment is
enabled), as a set of primary keys in which duplicates collapse. -/
theorem search_union_spec (matcher : String → String → String → Bool)
    (st : Store) (query : String) (langs : List String)
    (params : List (String × Bool)) (p : Nat) :
    p ∈ search matcher st query langs params ↔
      ((toggleOf params "source" || toggleOf params "context" ||
          toggleOf params "location") = true ∧
        p ∈ base_search_src matcher query (toggleOf params) st.source) ∨
      ((toggleOf params "target" || toggleOf params "comment") = true ∧
        ∃ l ∈ langs, p ∈ base_search_tgt matcher query (toggleOf params)
          (targetDocs st l)) :=
  mem_search_iff matcher st query langs params p

/-- Claim C8: a search whose field-toggle mapping enables none of the five
fields returns the empty set whatever the query, store and languages. -/
theorem search_no_enabled_fields (matcher : String → String → String → Bool)
    (st : Store) (query : String) (langs : List String)
    (params : List (String × Bool))
    (h : ∀ f ∈ searchFields, toggleOf params f = false) :
    search matcher st query langs params = ∅ := by
  have hs := h "source" (by simp [searchFields])
  have hc := h "context" (by simp [searchFields])
  have ht := h "target" (by simp [searchFields])
  have hm := h "comment" (by simp [searchFields])
  have hl := h "location" (by simp [searchFields])
  ext p
  rw [mem_search_iff]
  simp [hs, hc, ht, hm, hl]

/-- Witness for claim C8 at the empty field-toggle mapping. -/
theorem search_no_enabled_fields_witness :
    (∀ f ∈ searchFields, toggleOf [] f = false) ∧
    search (fun _ _ _ => true) (Store.mk [] [] [SrcDoc.mk 1 "a" "b" "c"] [])
      "q" ["cs"] [] = ∅ :=
  ⟨by decide, search_no_enabled_fields (fun _ _ _ => true)
    (Store.mk [] [] [SrcDoc.mk 1 "a" "b" "c"] []) "q" ["cs"] [] (by decide)⟩

/-- Claim C10: the search result sees the language collection only through
its set of members — collections with the same members give the same result,
and with an empty collection the target and comment toggles contribute
nothing, leaving only the source-shard part. -/
theorem search_langs_invariant (matcher : String → String → String → Bool)
    (st : Store) (query : String) (params : List (String × Bool))
    (langs langs2 : List String) (h : ∀ l, l ∈ langs ↔ l ∈ langs2) :
    search matcher st query langs params = search matcher st query langs2 params ∧
    search matcher st query [] params =
      (if (toggleOf params "source" || toggleOf params "context" ||
          toggleOf params "location") = true
       then (base_search_src matcher query (toggleOf params) st.source).toFinset
       else ∅) := by
  constructor
  · ext p
    rw [mem_search_iff, mem_search_iff]
    constructor
    · rintro (hp | ⟨ht, l, hl, hp⟩)
      · exact Or.inl hp
      · exact Or.inr ⟨ht, l, (h l).mp hl, hp⟩
    · rintro (hp | ⟨ht, l, hl, hp⟩)
      · exact Or.inl hp
      · exact Or.inr ⟨ht, l, (h l).mpr hl, hp⟩
  · ext p
    rw [mem_search_iff]
    by_cases h1 : (toggleOf params "source" || toggleOf params "context" ||
        toggleOf params "location") = true <;>
      simp [h1, List.mem_toFinset]

/-- Witness for claim C10 at two collections holding the same language
codes in different order and multiplicity. -/
theorem search_langs_invariant_witness :
    (∀ l : String, l ∈ ["cs", "en", "cs"] ↔ l ∈ ["en", "cs"]) ∧
    (search (fun _ _ _ => true)
        (Store.mk [] [] [SrcDoc.mk 1 "a" "b" "c"] [("cs", [TgtDoc.mk 2 "t" "m"])])
        "q" ["cs", "en", "cs"] [("target", true)] =
      search (fun _ _ _ => true)
        (Store.mk [] [] [SrcDoc.mk 1 "a" "b" "c"] [("cs", [TgtDoc.mk 2 "t" "m"])])
        "q" ["en", "cs"] [("target", true)] ∧
    search (fun _ _ _ => true)
        (Store.mk [] [] [SrcDoc.mk 1 "a" "b" "c"] [("cs", [TgtDoc.mk 2 "t" "m"])])
        "q" [] [("target", true)] =
      (if (toggleOf [("target", true)] "source" ||
          toggleOf [("target", true)] "context" ||
          toggleOf [("target", true)] "location") = true
       then (base_search_src (fun _ _ _ => true) "q" (toggleOf [("target", true)])
         (Store.mk [] [] [SrcDoc.mk 1 "a" "b" "c"]
           [("cs", [TgtDoc.mk 2 "t" "m"])]).source).toFinset
       else ∅)) :=
  ⟨by intro l; constructor <;> (intro hl; simp only [List.mem_cons,
      List.not_mem_nil, or_false] at hl ⊢; tauto),
    search_langs_invariant (fun _ _ _ => true)
      (Store.mk [] [] [SrcDoc.mk 1 "a" "b" "c"] [("cs", [TgtDoc.mk 2 "t" "m"])])
      "q" [("target", true)] ["cs", "en", "cs"] ["en", "cs"]
      (by intro l; constructor <;> (intro hl; simp only [List.mem_cons,
        List.not_mem_nil, or_false] at hl ⊢; tauto))⟩

/-! Helper lemmas about the similarity engine. -/

theorem find_self_of_nodup_keys (l : List (Nat × ℚ)) (h : (l.map Prod.fst).Nodup)
    (x : Nat × ℚ) (hx : x ∈ l) : l.find? (fun h2 => h2.1 == x.1) = some x := by
  induction l with
  | nil => cases hx
  | cons a as ih =>
    rw [List.map_cons, List.nodup_cons] at h
    rcases List.mem_cons.mp hx with rfl | hmem
    · simp [List.find?]
    · have hne : a.1 ≠ x.1 := by
        intro he
        exact h.1 (he ▸ List.mem_map_of_mem Prod.fst hmem)
      have hb : (a.1 == x.1) = false := beq_eq_false_iff_ne.mpr hne
      simp [List.find?, hb, ih h.2 hmem]

theorem normScores_eq (results : List (Nat × ℚ)) (m : ℚ)
    (hnd : (results.map Prod.fst).Nodup) (x : Nat × ℚ) (hx : x ∈ results) :
    normScores results m x.1 = x.2 * 100 / m := by
  have h1 : (results.reverse.map Prod.fst).Nodup := by
    rw [List.map_reverse]
    exact List.nodup_reverse.mpr hnd
  have h2 : x ∈ results.reverse := List.mem_reverse.mpr hx
  rw [normScores, find_self_of_nodup_keys _ h1 x h2]

theorem le_foldl_max (l : List ℚ) :
    ∀ a : ℚ, a ≤ l.foldl max a ∧ ∀ y ∈ l, y ≤ l.foldl max a := by
  induction l with
  | nil =>
    intro a
    exact ⟨le_refl a, by simp⟩
  | cons b bs ih =>
    intro a
    rw [List.foldl_cons]
    constructor
    · calc a ≤ max a b := le_max_left a b
        _ ≤ bs.foldl max (max a b) := (ih (max a b)).1
    · intro y hy
      rcases List.mem_cons.mp hy with rfl | h
      · calc y ≤ max a y := le_max_right a y
          _ ≤ bs.foldl max (max a y) := (ih (max a y)).1
      · exact (ih (max a b)).2 y h

theorem foldl_max_mem (l : List ℚ) :
    ∀ a : ℚ, l.foldl max a = a ∨ l.foldl max a ∈ l := by
  induction l with
  | nil =>
    intro a
    exact Or.inl rfl
  | cons b bs ih =>
    intro a
    rw [List.foldl_cons]
    rcases ih (max a b) with h | h
    · rcases max_choice a b with h2 | h2
      · exact Or.inl (h.trans h2)
      · exact Or.inr (List.mem_cons.mpr (Or.inl (h.trans h2)))
    · exact Or.inr (List.mem_cons_of_mem b h)

theorem pyMax_eq_of_max (l : List ℚ) (x : ℚ) (hx : x ∈ l)
    (hmax : ∀ y ∈ l, y ≤ x) : pyMax l = x := by
  cases l with
  | nil => cases hx
  | cons a as =>
    rw [pyMax]
    apply le_antisymm
    · rcases foldl_max_mem as a with h | h
      · rw [h]
        exact hmax a (List.mem_cons_self a as)
      · exact hmax _ (List.mem_cons_of_mem a h)
    · rcases List.mem_cons.mp hx with rfl | h
      · exact (le_foldl_max as x).1
      · exact (le_foldl_max as a).2 x h

/-- Claim C6: on a non-empty hit list with pairwise distinct primary keys,
the more_like post-processing returns, in the original ranked order, exactly
the hits whose own raw score normalized against the maximal raw score is
strictly above 50 and whose pk differs from the querying pk; the querying pk
itself never appears in the output. -/
theorem more_like_filter_spec (pk : Nat) (results : List (Nat × ℚ))
    (hne : results ≠ []) (hnd : (results.map Prod.fst).Nodup) :
    more_like_filter pk results =
      (results.filter (fun h =>
        decide (50 < h.2 * 100 / pyMax (results.map Prod.snd)) &&
        decide (h.1 ≠ pk))).map Prod.fst ∧
    pk ∉ more_like_filter pk results := by
  have heq : more_like_filter pk results =
      (results.filter (fun h =>
        decide (50 < normScores results (pyMax (results.map Prod.snd)) h.1) &&
        decide (h.1 ≠ pk))).map Prod.fst := by
    simp only [more_like_filter, if_neg hne]
  constructor
  · rw [heq]
    congr 1
    apply List.filter_congr
    intro x hx
    rw [normScores_eq results _ hnd x hx]
  · rw [heq]
    intro hmem
    obtain ⟨x, hx, he⟩ := List.mem_map.mp hmem
    have h2 := (List.mem_filter.mp hx).2
    simp only [Bool.and_eq_true, decide_eq_true_eq] at h2
    exact h2.2 he

/-- Witness for claim C6 at a concrete two-hit list with normalized scores
100 and 60 and a querying pk absent from the hits. -/
theorem more_like_filter_spec_witness :
    (([((1 : Nat), (10 : ℚ)), (2, 6)] : List (Nat × ℚ)) ≠ [] ∧
      (([((1 : Nat), (10 : ℚ)), (2, 6)] : List (Nat × ℚ)).map Prod.fst).Nodup) ∧
    (more_like_filter 3 [((1 : Nat), (10 : ℚ)), (2, 6)] =
      (([((1 : Nat), (10 : ℚ)), (2, 6)] : List (Nat × ℚ)).filter (fun h =>
        decide (50 < h.2 * 100 /
          pyMax (([((1 : Nat), (10 : ℚ)), (2, 6)] : List (Nat × ℚ)).map Prod.snd)) &&
        decide (h.1 ≠ 3))).map Prod.fst ∧
      3 ∉ more_like_filter 3 [((1 : Nat), (10 : ℚ)), (2, 6)]) :=
  ⟨⟨by decide, by decide⟩,
    more_like_filter_spec 3 [((1 : Nat), (10 : ℚ)), (2, 6)] (by decide) (by decide)⟩

/-- Claim C7: when key-term extraction yields no terms, the Or query over
zero terms matches no document, so more_like returns the empty list — not an
error and not every document. -/
theorem more_like_no_terms (keyTerms : String → List (String × ℚ))
    (tmatch : String → SrcDoc → Bool) (score : SrcDoc → ℚ) (top : Nat)
    (st : Store) (pk : Nat) (src : String) (h : keyTerms src = []) :
    more_like keyTerms tmatch score top st pk src = [] := by
  have hfilter : st.source.filter (orTermsMatch tmatch []) = [] := by
    induction st.source with
    | nil => rfl
    | cons d ds ih => simp [orTermsMatch, ih]
  simp [more_like, h, hfilter, rankByScore, more_like_filter]

/-- Witness for claim C7 at an extractor returning no terms over a non-empty
source shard. -/
theorem more_like_no_terms_witness :
    (fun _ : String => ([] : List (String × ℚ))) "xyz" = [] ∧
    more_like (fun _ => []) (fun _ _ => true) (fun _ => 1) 5
      (Store.mk [] [] [SrcDoc.mk 1 "a" "b" "c"] []) 9 "xyz" = [] :=
  ⟨rfl, more_like_no_terms (fun _ => []) (fun _ _ => true) (fun _ => 1) 5
    (Store.mk [] [] [SrcDoc.mk 1 "a" "b" "c"] []) 9 "xyz" rfl⟩

/-- Claim C9: in a hit list with distinct pks, the hit carrying the maximal
raw score (positive, as engine relevance scores of matches are) normalizes
to exactly 100; hence when its pk differs from the querying pk it survives
the strictly-above-50 filter and the returned list contains it. -/
theorem more_like_top_hit (pk : Nat) (results : List (Nat × ℚ)) (x : Nat × ℚ)
    (hmem : x ∈ results) (hnd : (results.map Prod.fst).Nodup)
    (hmax : ∀ r ∈ results, r.2 ≤ x.2) (hpos : 0 < x.2) :
    normScores results (pyMax (results.map Prod.snd)) x.1 = 100 ∧
    (x.1 ≠ pk → x.1 ∈ more_like_filter pk results) := by
  have hpm : pyMax (results.map Prod.snd) = x.2 := by
    apply pyMax_eq_of_max _ x.2 (List.mem_map_of_mem Prod.snd hmem)
    intro y hy
    obtain ⟨r, hr, rfl⟩ := List.mem_map.mp hy
    exact hmax r hr
  have hns : normScores results (pyMax (results.map Prod.snd)) x.1 = 100 := by
    rw [normScores_eq results _ hnd x hmem, hpm, mul_comm, mul_div_assoc,
      div_self hpos.ne', mul_one]
  refine ⟨hns, fun hxp => ?_⟩
  have hrne : results ≠ [] := List.ne_nil_of_mem hmem
  simp only [more_like_filter, if_neg hrne]
  apply List.mem_map.mpr
  refine ⟨x, List.mem_filter.mpr ⟨hmem, ?_⟩, rfl⟩
  simp only [Bool.and_eq_true, decide_eq_true_eq]
  refine ⟨?_, hxp⟩
  rw [hns]
  norm_num

/-- Witness for claim C9 at a two-hit list whose top scorer has pk 1 and is
returned when querying from pk 5. -/
theorem more_like_top_hit_witness :
    (((1 : Nat), (4 : ℚ)) ∈ ([((1 : Nat), (4 : ℚ)), (2, 2)] : List (Nat × ℚ)) ∧
      (0 : ℚ) < 4) ∧
    (normScores [((1 : Nat), (4 : ℚ)), (2, 2)]
        (pyMax (([((1 : Nat), (4 : ℚ)), (2, 2)] : List (Nat × ℚ)).map Prod.snd))
        1 = 100 ∧
      ((1 : Nat) ≠ 5 → 1 ∈ more_like_filter 5 [((1 : Nat), (4 : ℚ)), (2, 2)])) :=
  ⟨⟨by decide, by decide⟩,
    more_like_top_hit 5 [((1 : Nat), (4 : ℚ)), (2, 2)] ((1 : Nat), (4 : ℚ))
      (by decide) (by decide) (by decide) (by decide)⟩

end WeblateSearch
